import Mathlib

/-
Verification of the two notebooks of the quantum-algorithms-tutorials
repository: the variational quantum eigensolver (VQE) notebook and the
iterative phase estimation (IPEA) notebook.

Conventions of the shallow embedding:
* Python floats are modelled as exact rationals (ℚ); the arithmetic the
  notebooks perform on them is plain field arithmetic.
* A quantum circuit is the list of gate applications appended to it, in
  order.  Gate angles that the source writes as rational multiples of π
  (`np.pi`, `np.pi/2`, `2 * np.pi * phase * 2 ** k`) are stored as the
  rational coefficient of π, so that circuits stay decidable; theorems
  about the actual real angle multiply the stored coefficient by `Real.pi`.
* The simulator backend (`BasicAer`/`execute`) is an external collaborator:
  it is modelled as a function from a circuit to the counts mapping it
  returns for the fixed shot count.  Functions that execute circuits also
  return the list of circuits they sent to the simulator, so that "performs
  no simulator call" is an observable statement.
* A Python `raise ValueError(msg)` is modelled as `Except.error msg`.
-/

set_option autoImplicit false

namespace QAT

/-- Measurement counts returned by the simulator: a mapping from outcome
bitstring to occurrence count (a Python dict, modelled as an association
list with distinct keys in insertion order). -/
abbrev Counts := List (String × ℕ)

/-- Gates used by the VQE notebook's single-qubit circuits.  `rx`/`ry` store
the raw rotation parameter; `u2 a b` stores the two `u2` angles as rational
coefficients of π (the source only ever passes `0`, `np.pi` and `np.pi/2`);
`measure` is the final computational-basis measurement. -/
inductive VGate where
  | rx : ℚ → VGate
  | ry : ℚ → VGate
  | u2 : ℚ → ℚ → VGate
  | measure : VGate
  deriving DecidableEq

/-- `quantum_state_preparation(circuit, parameters)` from the VQE notebook:
appends `rx(parameters[0])` and `ry(parameters[1])` to the circuit. -/
def quantum_state_preparation (circuit : List VGate) (parameters : ℚ × ℚ) : List VGate :=
  circuit ++ [VGate.rx parameters.1, VGate.ry parameters.2]

/-- `vqe_circuit(parameters, measure)` from the VQE notebook: state
preparation followed by the basis-change gate for the requested measurement
(`u2(0, π)` for X, `u2(0, π/2)` for Y, nothing for Z) and a measurement;
any other label raises a `ValueError`. -/
def vqe_circuit (parameters : ℚ × ℚ) (measure : String) : Except String (List VGate) :=
  let circuit := quantum_state_preparation [] parameters
  if measure = "Z" then
    Except.ok (circuit ++ [VGate.measure])
  else if measure = "X" then
    Except.ok (circuit ++ [VGate.u2 0 1, VGate.measure])
  else if measure = "Y" then
    Except.ok (circuit ++ [VGate.u2 0 (1/2), VGate.measure])
  else
    Except.error "Not valid input for measurement: input should be \"X\" or \"Y\" or \"Z\""

/-- `get_or_else_zero(d, key)` from the VQE notebook: the value of `key` in
the dictionary if present, else `0`.  (Generic over the value type, as the
notebook uses it both on coefficient dicts and on counts dicts.) -/
def get_or_else_zero {α : Type} [Zero α] : List (String × α) → String → α
  | [], _ => 0
  | (k, v) :: d, key => if key = k then v else get_or_else_zero d key

/-- The fixed shot count used by `quantum_module`. -/
def shots : ℕ := 1000

/-- The expression `(get_or_else_zero(counts, '0') - get_or_else_zero(counts, '1')) / shots`
computed by `quantum_module` from the simulator's counts (the local variable
`expectation_value` of the source). -/
def expectation_value (counts : Counts) : ℚ :=
  (((get_or_else_zero counts "0" : ℕ) : ℚ) - ((get_or_else_zero counts "1" : ℕ) : ℚ)) / (shots : ℚ)

/-- `quantum_module(parameters, measure)` from the VQE notebook.  Returns
`1` immediately for basis `I`; for `Z`/`X`/`Y` builds the corresponding
`vqe_circuit`, executes it on the simulator `sim` (recorded in the second
component), and computes `(n0 - n1) / shots` from the counts with
`get_or_else_zero`; any other label raises a `ValueError` before any
circuit is built or executed. -/
def quantum_module (sim : List VGate → Counts) (parameters : ℚ × ℚ) (measure : String) :
    Except String ℚ × List (List VGate) :=
  if measure = "I" then
    (Except.ok 1, [])
  else
    let circuit? :=
      if measure = "Z" then vqe_circuit parameters "Z"
      else if measure = "X" then vqe_circuit parameters "X"
      else if measure = "Y" then vqe_circuit parameters "Y"
      else Except.error "Not valid input for measurement: input should be \"I\" or \"X\" or \"Z\" or \"Y\""
    match circuit? with
    | Except.error e => (Except.error e, [])
    | Except.ok circuit =>
      let counts := sim circuit
      (Except.ok (expectation_value counts), [circuit])

/-- `vqe(parameters)` from the VQE notebook: calls `quantum_module` for each
of the four labels `I`, `Z`, `X`, `Y` (unconditionally), weights each result
by `get_or_else_zero(pauli_dict, label)` and sums.  The simulator `sim` and
the Hamiltonian dictionary `pauli_dict` are the module-level objects of the
notebook, passed explicitly; executed circuits are accumulated in order. -/
def vqe (sim : List VGate → Counts) (pauli_dict : List (String × ℚ)) (parameters : ℚ × ℚ) :
    Except String ℚ × List (List VGate) :=
  match quantum_module sim parameters "I" with
  | (Except.error e, tI) => (Except.error e, tI)
  | (Except.ok vI, tI) =>
    match quantum_module sim parameters "Z" with
    | (Except.error e, tZ) => (Except.error e, tI ++ tZ)
    | (Except.ok vZ, tZ) =>
      match quantum_module sim parameters "X" with
      | (Except.error e, tX) => (Except.error e, tI ++ tZ ++ tX)
      | (Except.ok vX, tX) =>
        match quantum_module sim parameters "Y" with
        | (Except.error e, tY) => (Except.error e, tI ++ tZ ++ tX ++ tY)
        | (Except.ok vY, tY) =>
          let classical_adder :=
            get_or_else_zero pauli_dict "I" * vI + get_or_else_zero pauli_dict "Z" * vZ +
            get_or_else_zero pauli_dict "X" * vX + get_or_else_zero pauli_dict "Y" * vY
          (Except.ok classical_adder, tI ++ tZ ++ tX ++ tY)

/-- The value `quantum_module` returns for a label (0 on the error path);
used to state the coefficient-weighted-sum form of `vqe`. -/
def qm_val (sim : List VGate → Counts) (parameters : ℚ × ℚ) (measure : String) : ℚ :=
  match (quantum_module sim parameters measure).1 with
  | Except.ok v => v
  | Except.error _ => 0

/-- Gates used by the IPEA notebook's two-qubit circuits: `x_q` is the X
gate on the main register qubit `q[0]`, `h_a` the Hadamard on the ancillary
qubit `a[0]`, `control_H` one application of the controlled time-evolution
sub-circuit, `u1_a c` the `u1` phase gate on the ancillary with angle `c·π`
(the source passes `-phase_shift` with `phase_shift = 2·π·phase·2^k`, stored
here as the coefficient `-(2·phase·2^k)` of π), and `measure_a` the final
measurement of the ancillary into the classical register. -/
inductive IGate where
  | x_q : IGate
  | h_a : IGate
  | control_H : IGate
  | u1_a : ℚ → IGate
  | measure_a : IGate
  deriving DecidableEq

/-- The circuit `k_circ` built by one iteration of the IPEA loop, for the
current accumulator value `phase` and bit index `k_precision`: eigenstate
initialization, initial Hadamard, `2 ** k_precision` sequential applications
of `control_H`, the feedback phase gate `u1(-2·π·phase·2^k)`, the final
Hadamard, and the ancilla measurement. -/
def k_circ (phase : ℚ) (k_precision : ℕ) : List IGate :=
  [IGate.x_q, IGate.h_a] ++ List.replicate (2 ^ k_precision) IGate.control_H ++
    [IGate.u1_a (-(2 * phase * 2 ^ k_precision)), IGate.h_a, IGate.measure_a]

/-- `max(counts, key=counts.get)` from the IPEA loop: the key of the counts
dictionary holding the largest count; on ties the key seen first wins, as in
Python.  (Python's `max` raises on an empty dict, which the simulator never
returns; the empty case is mapped to `""`.) -/
def max_key : Counts → String
  | [] => ""
  | (k, v) :: rest => (rest.foldl (fun best p => if best.2 < p.2 then p else best) (k, v)).1

/-- Python `int(s)` on the keys of a counts dictionary, which are
non-negative decimal bitstrings (`"0"`/`"1"` for the one-bit classical
register of the IPEA loop). -/
def int_of_key (s : String) : ℕ :=
  s.toList.foldl (fun n c => n * 10 + (c.toNat - Char.toNat '0')) 0

/-- `value = int(max(counts, key=counts.get))` from the IPEA loop: the
majority-vote outcome of the one-bit classical register, parsed as a
number. -/
def value_of_counts (counts : Counts) : ℕ :=
  int_of_key (max_key counts)

/-- One pass of the IPEA `for` loop body over the list of remaining bit
indices, threading the `phase` accumulator; returns the terminal accumulator
together with the circuits built (and executed) at each iteration, in order.
`oracle k` is the counts mapping the simulator returns for the iteration
with bit index `k` (each index occurs at most once per run). -/
def ipea_loop (oracle : ℕ → Counts) : List ℕ → ℚ → ℚ × List (List IGate)
  | [], phase => (phase, [])
  | k :: ks, phase =>
    let circ := k_circ phase k
    let value := value_of_counts (oracle k)
    let rest := ipea_loop oracle ks (phase + (value : ℚ) / 2 ^ (k + 1))
    (rest.1, circ :: rest.2)

/-- The accumulator value after each iteration of the IPEA loop, in order
(one entry per iteration). -/
def ipea_phases (oracle : ℕ → Counts) : List ℕ → ℚ → List ℚ
  | [], _ => []
  | k :: ks, phase =>
    let value := value_of_counts (oracle k)
    let phase' := phase + (value : ℚ) / 2 ^ (k + 1)
    phase' :: ipea_phases oracle ks phase'

/-- The full IPEA run of the notebook: `phase = 0`, then
`for k_precision in reversed(range(num_bits_estimate))`, returning the
terminal value of the `phase` accumulator. -/
def ipea_phase (oracle : ℕ → Counts) (num_bits_estimate : ℕ) : ℚ :=
  (ipea_loop oracle (List.range num_bits_estimate).reverse 0).1

/-- The circuits executed by the full IPEA run, in order. -/
def ipea_circuits (oracle : ℕ → Counts) (num_bits_estimate : ℕ) : List (List IGate) :=
  (ipea_loop oracle (List.range num_bits_estimate).reverse 0).2

/-- The evolution time `t = 1` of the IPEA notebook. -/
def t : ℚ := 1

/-- `eigenvalue = 2 * np.pi * (1 - phase) / t` from the IPEA notebook, with
the result stored as a rational coefficient of π: the real eigenvalue is
`eigenvalue_in_pi phase * π`. -/
def eigenvalue_in_pi (phase : ℚ) : ℚ :=
  2 * (1 - phase) / t

/-- The number of `control_H` applications appearing in a circuit. -/
def count_control_H : List IGate → ℕ
  | [] => 0
  | IGate.control_H :: gs => count_control_H gs + 1
  | _ :: gs => count_control_H gs

/-- A concrete deterministic simulator used as a test fixture: every circuit
yields outcome `"0"` on all 1000 shots. -/
def sim0 : List VGate → Counts := fun _ => [("0", 1000)]

/-- A concrete deterministic simulator fixture for full count distributions:
600 shots give `"0"` and 400 give `"1"`. -/
def sim64 : List VGate → Counts := fun _ => [("0", 600), ("1", 400)]

/-- A concrete IPEA measurement fixture: every iteration's ancilla counts
are 700 times `"1"` and 300 times `"0"` (majority bit 1). -/
def oracle1 : ℕ → Counts := fun _ => [("1", 700), ("0", 300)]

/-! ## Helper lemmas -/

/-- A key absent from the keys of an association list looks up to zero. -/
lemma get_or_else_zero_eq_zero {α : Type} [Zero α]
    (d : List (String × α)) (key : String) (h : key ∉ d.map Prod.fst) :
    get_or_else_zero d key = 0 := by
  induction d with
  | nil => rfl
  | cons p d ih =>
    obtain ⟨k, v⟩ := p
    simp only [List.map_cons, List.mem_cons, not_or] at h
    simp only [get_or_else_zero, if_neg h.1]
    exact ih h.2

/-- The count of any single outcome is at most the total over all outcomes. -/
lemma get_or_else_zero_le_sum (counts : Counts) (key : String) :
    get_or_else_zero counts key ≤ (counts.map Prod.snd).sum := by
  induction counts with
  | nil => simp [get_or_else_zero]
  | cons p d ih =>
    obtain ⟨k, v⟩ := p
    simp only [get_or_else_zero, List.map_cons, List.sum_cons]
    by_cases h : key = k
    · simp [h]
    · simp only [if_neg h]
      exact ih.trans (Nat.le_add_left _ _)

/-! ## Claims about the VQE notebook -/

/-- C5: for every parameter pair (and every simulator), calling the Pauli
estimator `quantum_module` with basis `I` returns exactly `1.0` immediately
and deterministically, and performs zero simulator calls (the list of
executed circuits is empty). -/
theorem quantum_module_identity_basis (sim : List VGate → Counts) (parameters : ℚ × ℚ) :
    quantum_module sim parameters "I" = (Except.ok 1, []) := by
  unfold quantum_module
  simp

/-- C6: for every basis label outside `{I, Z, X, Y}` and every parameter
pair, `quantum_module` raises the invalid-argument `ValueError` and never
builds or executes a circuit: the result is the error alone, with an empty
list of executed circuits. -/
theorem quantum_module_invalid_basis (sim : List VGate → Counts) (parameters : ℚ × ℚ)
    (measure : String) (h : measure ∉ (["I", "Z", "X", "Y"] : List String)) :
    quantum_module sim parameters measure =
      (Except.error "Not valid input for measurement: input should be \"I\" or \"X\" or \"Z\" or \"Y\"",
       []) := by
  simp only [List.mem_cons, List.not_mem_nil, or_false, not_or] at h
  obtain ⟨hI, hZ, hX, hY⟩ := h
  unfold quantum_module
  rw [if_neg hI, if_neg hZ, if_neg hX, if_neg hY]

/-- Witness for C6 at the concrete label `"A"`. -/
theorem quantum_module_invalid_basis_witness :
    ("A" : String) ∉ (["I", "Z", "X", "Y"] : List String) ∧
    quantum_module sim0 (0, 0) "A" =
      (Except.error "Not valid input for measurement: input should be \"I\" or \"X\" or \"Z\" or \"Y\"",
       []) :=
  ⟨by decide, quantum_module_invalid_basis sim0 (0, 0) "A" (by decide)⟩

/-- C2 (counterexample): the claim that the `ValueError` message names the
offending input fails at the concrete input `"Q"`: both call sites raise
messages that are fixed strings naming only the accepted set, and neither
message contains the character of the offending input. -/
theorem invalid_basis_message_counterexample :
    vqe_circuit (0, 0) "Q" =
      Except.error "Not valid input for measurement: input should be \"X\" or \"Y\" or \"Z\"" ∧
    "Not valid input for measurement: input should be \"X\" or \"Y\" or \"Z\"".toList.contains 'Q'
      = false ∧
    quantum_module sim0 (0, 0) "Q" =
      (Except.error "Not valid input for measurement: input should be \"I\" or \"X\" or \"Z\" or \"Y\"",
       []) ∧
    "Not valid input for measurement: input should be \"I\" or \"X\" or \"Z\" or \"Y\"".toList.contains 'Q'
      = false := by
  refine ⟨?_, by decide, ?_, by decide⟩
  · unfold vqe_circuit
    simp
  · unfold quantum_module
    simp

/-- C2 (amended): for every measurement-basis string outside the accepted
set (`{I, X, Y, Z}` at the `quantum_module` call site, `{X, Y, Z}` at the
`vqe_circuit` call site), the call raises a `ValueError` whose message names
the accepted set — but not the offending input. -/
theorem invalid_basis_error_message (sim : List VGate → Counts) (parameters : ℚ × ℚ)
    (m1 m2 : String)
    (h1 : m1 ∉ (["X", "Y", "Z"] : List String))
    (h2 : m2 ∉ (["I", "X", "Y", "Z"] : List String)) :
    vqe_circuit parameters m1 =
      Except.error "Not valid input for measurement: input should be \"X\" or \"Y\" or \"Z\"" ∧
    quantum_module sim parameters m2 =
      (Except.error "Not valid input for measurement: input should be \"I\" or \"X\" or \"Z\" or \"Y\"",
       []) := by
  simp only [List.mem_cons, List.not_mem_nil, or_false, not_or] at h1 h2
  obtain ⟨hX, hY, hZ⟩ := h1
  obtain ⟨gI, gX, gY, gZ⟩ := h2
  constructor
  · unfold vqe_circuit
    rw [if_neg hZ, if_neg hX, if_neg hY]
  · unfold quantum_module
    rw [if_neg gI, if_neg gZ, if_neg gX, if_neg gY]

/-- Witness for C2 (amended) at the concrete label `"W"`. -/
theorem invalid_basis_error_message_witness :
    ("W" : String) ∉ (["X", "Y", "Z"] : List String) ∧
    ("W" : String) ∉ (["I", "X", "Y", "Z"] : List String) ∧
    (vqe_circuit (0, 0) "W" =
      Except.error "Not valid input for measurement: input should be \"X\" or \"Y\" or \"Z\"" ∧
    quantum_module sim0 (0, 0) "W" =
      (Except.error "Not valid input for measurement: input should be \"I\" or \"X\" or \"Z\" or \"Y\"",
       [])) :=
  ⟨by decide, by decide, invalid_basis_error_message sim0 (0, 0) "W" "W" (by decide) (by decide)⟩

/-- For the three measured bases, `quantum_module` executes exactly the
circuit built by `vqe_circuit` and reduces its counts with
`expectation_value`. -/
lemma quantum_module_basis (sim : List VGate → Counts) (parameters : ℚ × ℚ)
    (measure : String) (circuit : List VGate)
    (hb : measure = "Z" ∨ measure = "X" ∨ measure = "Y")
    (hcirc : vqe_circuit parameters measure = Except.ok circuit) :
    quantum_module sim parameters measure =
      (Except.ok (expectation_value (sim circuit)), [circuit]) := by
  rcases hb with h | h | h <;> subst h <;> unfold quantum_module <;>
    simp only [String.reduceEq, if_true, if_false, ite_true, ite_false] <;>
    rw [hcirc]

/-- When the counts sum to the shot count, `(n0 - n1) / shots` lies in
`[-1, 1]`. -/
lemma expectation_value_bounds (counts : Counts)
    (hsum : (counts.map Prod.snd).sum = shots) :
    -1 ≤ expectation_value counts ∧ expectation_value counts ≤ 1 := by
  have h0 : get_or_else_zero counts "0" ≤ 1000 := by
    have := get_or_else_zero_le_sum counts "0"
    rw [hsum] at this
    simpa [shots] using this
  have h1 : get_or_else_zero counts "1" ≤ 1000 := by
    have := get_or_else_zero_le_sum counts "1"
    rw [hsum] at this
    simpa [shots] using this
  have h0q : ((get_or_else_zero counts "0" : ℕ) : ℚ) ≤ 1000 := by exact_mod_cast h0
  have h1q : ((get_or_else_zero counts "1" : ℕ) : ℚ) ≤ 1000 := by exact_mod_cast h1
  have h0n : (0 : ℚ) ≤ ((get_or_else_zero counts "0" : ℕ) : ℚ) := by positivity
  have h1n : (0 : ℚ) ≤ ((get_or_else_zero counts "1" : ℕ) : ℚ) := by positivity
  have hpos : (0 : ℚ) < (shots : ℚ) := by norm_num [shots]
  constructor
  · rw [expectation_value, le_div_iff₀ hpos]
    have : (shots : ℚ) = 1000 := by norm_num [shots]
    rw [this]
    linarith
  · rw [expectation_value, div_le_one hpos]
    have : (shots : ℚ) = 1000 := by norm_num [shots]
    rw [this]
    linarith

/-- C4: for every counts mapping the simulator returns (values are
non-negative integers by type) summing to the fixed shot count 1000, the
Pauli estimator computes the expectation value as `(n0 - n1) / shots` with
missing outcomes counted as zero by `get_or_else_zero`, and the returned
value lies in `[-1, 1]`. -/
theorem quantum_module_expectation_formula (sim : List VGate → Counts)
    (parameters : ℚ × ℚ) (measure : String) (circuit : List VGate)
    (hb : measure = "Z" ∨ measure = "X" ∨ measure = "Y")
    (hcirc : vqe_circuit parameters measure = Except.ok circuit)
    (hsum : ((sim circuit).map Prod.snd).sum = shots) :
    quantum_module sim parameters measure =
      (Except.ok (expectation_value (sim circuit)), [circuit]) ∧
    expectation_value (sim circuit) =
      (((get_or_else_zero (sim circuit) "0" : ℕ) : ℚ)
        - ((get_or_else_zero (sim circuit) "1" : ℕ) : ℚ)) / (shots : ℚ) ∧
    -1 ≤ expectation_value (sim circuit) ∧ expectation_value (sim circuit) ≤ 1 :=
  ⟨quantum_module_basis sim parameters measure circuit hb hcirc, rfl,
   expectation_value_bounds (sim circuit) hsum⟩

/-- Witness for C4 at a concrete 600/400 count distribution. -/
theorem quantum_module_expectation_formula_witness :
    vqe_circuit (0, 0) "Z" = Except.ok [VGate.rx 0, VGate.ry 0, VGate.measure] ∧
    ((sim64 [VGate.rx 0, VGate.ry 0, VGate.measure]).map Prod.snd).sum = shots ∧
    (quantum_module sim64 (0, 0) "Z" =
      (Except.ok (expectation_value (sim64 [VGate.rx 0, VGate.ry 0, VGate.measure])),
       [[VGate.rx 0, VGate.ry 0, VGate.measure]]) ∧
    expectation_value (sim64 [VGate.rx 0, VGate.ry 0, VGate.measure]) =
      (((get_or_else_zero (sim64 [VGate.rx 0, VGate.ry 0, VGate.measure]) "0" : ℕ) : ℚ)
        - ((get_or_else_zero (sim64 [VGate.rx 0, VGate.ry 0, VGate.measure]) "1" : ℕ) : ℚ))
          / (shots : ℚ) ∧
    -1 ≤ expectation_value (sim64 [VGate.rx 0, VGate.ry 0, VGate.measure]) ∧
    expectation_value (sim64 [VGate.rx 0, VGate.ry 0, VGate.measure]) ≤ 1) := by
  have hcirc : vqe_circuit (0, 0) "Z" = Except.ok [VGate.rx 0, VGate.ry 0, VGate.measure] := by
    unfold vqe_circuit quantum_state_preparation
    simp
  refine ⟨hcirc, by decide, ?_⟩
  exact quantum_module_expectation_formula sim64 (0, 0) "Z"
    [VGate.rx 0, VGate.ry 0, VGate.measure] (Or.inl rfl) hcirc (by decide)

/-- The value component of `quantum_module` at basis `I` is 1. -/
lemma qm_val_identity (sim : List VGate → Counts) (parameters : ℚ × ℚ) :
    qm_val sim parameters "I" = 1 := by
  simp [qm_val, quantum_module_identity_basis]

/-- The value component of `quantum_module` at a measured basis is the
`expectation_value` of the executed circuit's counts. -/
lemma qm_val_basis (sim : List VGate → Counts) (parameters : ℚ × ℚ)
    (measure : String) (circuit : List VGate)
    (hb : measure = "Z" ∨ measure = "X" ∨ measure = "Y")
    (hcirc : vqe_circuit parameters measure = Except.ok circuit) :
    qm_val sim parameters measure = expectation_value (sim circuit) := by
  simp [qm_val, quantum_module_basis sim parameters measure circuit hb hcirc]

/-- Unfolding of `vqe`: it always succeeds, its value is the four-term
weighted sum over the fixed labels `I`, `Z`, `X`, `Y`, and it always
executes exactly the three circuits for `Z`, `X` and `Y`, in that order. -/
lemma vqe_eq (sim : List VGate → Counts) (pauli_dict : List (String × ℚ))
    (parameters : ℚ × ℚ) (cz cx cy : List VGate)
    (hcz : vqe_circuit parameters "Z" = Except.ok cz)
    (hcx : vqe_circuit parameters "X" = Except.ok cx)
    (hcy : vqe_circuit parameters "Y" = Except.ok cy) :
    vqe sim pauli_dict parameters =
      (Except.ok (get_or_else_zero pauli_dict "I" * 1 +
        get_or_else_zero pauli_dict "Z" * expectation_value (sim cz) +
        get_or_else_zero pauli_dict "X" * expectation_value (sim cx) +
        get_or_else_zero pauli_dict "Y" * expectation_value (sim cy)),
       [cz, cx, cy]) := by
  unfold vqe
  rw [quantum_module_identity_basis,
    quantum_module_basis sim parameters "Z" cz (Or.inl rfl) hcz,
    quantum_module_basis sim parameters "X" cx (Or.inr (Or.inl rfl)) hcx,
    quantum_module_basis sim parameters "Y" cy (Or.inr (Or.inr rfl)) hcy]
  simp

/-- Coefficient-weighted sums over an association list whose keys are drawn
without repetition from `{I, Z, X, Y}` coincide with the four-term sum of
zero-default lookups. -/
lemma weighted_sum_eq (f : String → ℚ) (d : List (String × ℚ)) :
    (∀ q ∈ d, q.1 = "I" ∨ q.1 = "Z" ∨ q.1 = "X" ∨ q.1 = "Y") →
    (d.map Prod.fst).Nodup →
    (d.map fun lc => lc.2 * f lc.1).sum =
      get_or_else_zero d "I" * f "I" + get_or_else_zero d "Z" * f "Z" +
      get_or_else_zero d "X" * f "X" + get_or_else_zero d "Y" * f "Y" := by
  induction d with
  | nil =>
    intro _ _
    simp [get_or_else_zero]
  | cons p d ih =>
    intro hkeys hnodup
    obtain ⟨l, c⟩ := p
    have hl : l = "I" ∨ l = "Z" ∨ l = "X" ∨ l = "Y" :=
      hkeys (l, c) (List.mem_cons_self _ _)
    have hd : ∀ q ∈ d, q.1 = "I" ∨ q.1 = "Z" ∨ q.1 = "X" ∨ q.1 = "Y" :=
      fun q hq => hkeys q (List.mem_cons_of_mem _ hq)
    rw [List.map_cons, List.nodup_cons] at hnodup
    obtain ⟨hlnot, hnd⟩ := hnodup
    have h0 : get_or_else_zero d l = (0 : ℚ) := get_or_else_zero_eq_zero d l hlnot
    have ihh := ih hd hnd
    rcases hl with h | h | h | h <;> subst h <;>
      simp only [List.map_cons, List.sum_cons, get_or_else_zero, String.reduceEq,
        if_true, if_false, ite_true, ite_false] <;>
      rw [ihh, h0] <;> ring

/-- C1 (counterexample): with a Hamiltonian mapping containing only the
label `I`, the composition `vqe` still invokes the estimator for the absent
labels `Z`, `X` and `Y`: it executes the three corresponding circuits
(trace of length 3), contradicting "the absent label contributes zero
without invoking quantum_module". -/
theorem vqe_absent_label_counterexample :
    vqe sim0 [("I", (5 : ℚ))] (0, 0) =
      (Except.ok 5,
       [[VGate.rx 0, VGate.ry 0, VGate.measure],
        [VGate.rx 0, VGate.ry 0, VGate.u2 0 1, VGate.measure],
        [VGate.rx 0, VGate.ry 0, VGate.u2 0 (1/2), VGate.measure]]) ∧
    ("Z" : String) ∉ ([("I", (5 : ℚ))].map Prod.fst) ∧
    ("X" : String) ∉ ([("I", (5 : ℚ))].map Prod.fst) ∧
    ("Y" : String) ∉ ([("I", (5 : ℚ))].map Prod.fst) := by
  refine ⟨?_, by decide, by decide, by decide⟩
  have hcz : vqe_circuit (0, 0) "Z" = Except.ok [VGate.rx 0, VGate.ry 0, VGate.measure] := by
    unfold vqe_circuit quantum_state_preparation; simp
  have hcx : vqe_circuit (0, 0) "X" =
      Except.ok [VGate.rx 0, VGate.ry 0, VGate.u2 0 1, VGate.measure] := by
    unfold vqe_circuit quantum_state_preparation; simp
  have hcy : vqe_circuit (0, 0) "Y" =
      Except.ok [VGate.rx 0, VGate.ry 0, VGate.u2 0 (1/2), VGate.measure] := by
    unfold vqe_circuit quantum_state_preparation; simp
  rw [vqe_eq sim0 [("I", (5 : ℚ))] (0, 0) _ _ _ hcz hcx hcy]
  simp only [get_or_else_zero, expectation_value, sim0, shots, String.reduceEq,
    if_true, if_false, ite_true, ite_false]
  norm_num

/-- C1 (amended): the composed Hamiltonian expectation `vqe` equals the
coefficient-weighted sum of the Pauli estimator's output over the labels
present in the mapping (whose keys are drawn without repetition from
`{I, Z, X, Y}`); a label absent from the mapping contributes zero to the
value because its `get_or_else_zero` coefficient is zero — but the
composition still invokes `quantum_module` for all four labels and executes
the three circuits for `Z`, `X`, `Y` regardless of which labels are
present. -/
theorem vqe_weighted_sum (sim : List VGate → Counts) (pauli_dict : List (String × ℚ))
    (parameters : ℚ × ℚ) (cz cx cy : List VGate)
    (hkeys : ∀ q ∈ pauli_dict, q.1 = "I" ∨ q.1 = "Z" ∨ q.1 = "X" ∨ q.1 = "Y")
    (hnodup : (pauli_dict.map Prod.fst).Nodup)
    (hcz : vqe_circuit parameters "Z" = Except.ok cz)
    (hcx : vqe_circuit parameters "X" = Except.ok cx)
    (hcy : vqe_circuit parameters "Y" = Except.ok cy) :
    vqe sim pauli_dict parameters =
      (Except.ok ((pauli_dict.map fun lc => lc.2 * qm_val sim parameters lc.1).sum),
       [cz, cx, cy]) := by
  rw [vqe_eq sim pauli_dict parameters cz cx cy hcz hcx hcy,
    weighted_sum_eq (qm_val sim parameters) pauli_dict hkeys hnodup,
    qm_val_identity sim parameters,
    qm_val_basis sim parameters "Z" cz (Or.inl rfl) hcz,
    qm_val_basis sim parameters "X" cx (Or.inr (Or.inl rfl)) hcx,
    qm_val_basis sim parameters "Y" cy (Or.inr (Or.inr rfl)) hcy]

/-- Witness for C1 (amended) at a concrete two-term Hamiltonian mapping. -/
theorem vqe_weighted_sum_witness :
    (∀ q ∈ ([("Z", (1/2 : ℚ)), ("X", 3)] : List (String × ℚ)),
      q.1 = "I" ∨ q.1 = "Z" ∨ q.1 = "X" ∨ q.1 = "Y") ∧
    (([("Z", (1/2 : ℚ)), ("X", 3)].map Prod.fst)).Nodup ∧
    vqe sim64 [("Z", (1/2 : ℚ)), ("X", 3)] (0, 0) =
      (Except.ok (([("Z", (1/2 : ℚ)), ("X", 3)].map
          fun lc => lc.2 * qm_val sim64 (0, 0) lc.1).sum),
       [[VGate.rx 0, VGate.ry 0, VGate.measure],
        [VGate.rx 0, VGate.ry 0, VGate.u2 0 1, VGate.measure],
        [VGate.rx 0, VGate.ry 0, VGate.u2 0 (1/2), VGate.measure]]) := by
  have hcz : vqe_circuit (0, 0) "Z" = Except.ok [VGate.rx 0, VGate.ry 0, VGate.measure] := by
    unfold vqe_circuit quantum_state_preparation; simp
  have hcx : vqe_circuit (0, 0) "X" =
      Except.ok [VGate.rx 0, VGate.ry 0, VGate.u2 0 1, VGate.measure] := by
    unfold vqe_circuit quantum_state_preparation; simp
  have hcy : vqe_circuit (0, 0) "Y" =
      Except.ok [VGate.rx 0, VGate.ry 0, VGate.u2 0 (1/2), VGate.measure] := by
    unfold vqe_circuit quantum_state_preparation; simp
  exact ⟨by decide, by decide,
    vqe_weighted_sum sim64 [("Z", (1/2 : ℚ)), ("X", 3)] (0, 0) _ _ _
      (by decide) (by decide) hcz hcx hcy⟩

/-! ## Helper lemmas for the IPEA loop -/

/-- Unfolding of `ipea_loop` on an empty index list. -/
lemma ipea_loop_nil (oracle : ℕ → Counts) (phase : ℚ) :
    ipea_loop oracle [] phase = (phase, []) := rfl

/-- Unfolding of `ipea_loop` on a non-empty index list. -/
lemma ipea_loop_cons (oracle : ℕ → Counts) (k : ℕ) (ks : List ℕ) (phase : ℚ) :
    ipea_loop oracle (k :: ks) phase =
      ((ipea_loop oracle ks (phase + (value_of_counts (oracle k) : ℚ) / 2 ^ (k + 1))).1,
       k_circ phase k ::
         (ipea_loop oracle ks (phase + (value_of_counts (oracle k) : ℚ) / 2 ^ (k + 1))).2) := rfl

/-- Unfolding of `ipea_phases` on an empty index list. -/
lemma ipea_phases_nil (oracle : ℕ → Counts) (phase : ℚ) :
    ipea_phases oracle [] phase = [] := rfl

/-- Unfolding of `ipea_phases` on a non-empty index list. -/
lemma ipea_phases_cons (oracle : ℕ → Counts) (k : ℕ) (ks : List ℕ) (phase : ℚ) :
    ipea_phases oracle (k :: ks) phase =
      (phase + (value_of_counts (oracle k) : ℚ) / 2 ^ (k + 1)) ::
        ipea_phases oracle ks (phase + (value_of_counts (oracle k) : ℚ) / 2 ^ (k + 1)) := rfl

/-- Reversed ranges peel off their largest element first. -/
lemma range_reverse_succ (n : ℕ) :
    (List.range (n + 1)).reverse = n :: (List.range n).reverse := by
  rw [List.range_succ, List.reverse_append]
  simp

/-- `count_control_H` distributes over append. -/
lemma count_control_H_append (l1 l2 : List IGate) :
    count_control_H (l1 ++ l2) = count_control_H l1 + count_control_H l2 := by
  induction l1 with
  | nil => simp [count_control_H]
  | cons g l ih => cases g <;> (simp [count_control_H, ih]; try omega)

/-- A block of `n` repeated `control_H` gates counts as `n`. -/
lemma count_control_H_replicate (n : ℕ) :
    count_control_H (List.replicate n IGate.control_H) = n := by
  induction n with
  | zero => rfl
  | succ n ih => simp [List.replicate, count_control_H, ih]

/-- The circuit of iteration `k` applies `control_H` exactly `2 ^ k`
times. -/
lemma count_control_H_k_circ (phase : ℚ) (k : ℕ) :
    count_control_H (k_circ phase k) = 2 ^ k := by
  unfold k_circ
  rw [count_control_H_append, count_control_H_append, count_control_H_replicate]
  simp [count_control_H]

/-- The result of the `max`-style fold is either the initial pair or one of
the list's pairs. -/
lemma foldl_max_mem (l : List (String × ℕ)) : ∀ init : String × ℕ,
    l.foldl (fun best p => if best.2 < p.2 then p else best) init = init ∨
    l.foldl (fun best p => if best.2 < p.2 then p else best) init ∈ l := by
  induction l with
  | nil => intro init; left; rfl
  | cons q l ih =>
    intro init
    rw [List.foldl_cons]
    rcases ih (if init.2 < q.2 then q else init) with h | h
    · rw [h]
      by_cases hc : init.2 < q.2
      · right; rw [if_pos hc]; exact List.mem_cons_self _ _
      · left; rw [if_neg hc]
    · right
      exact List.mem_cons_of_mem _ h

/-- On a non-empty counts dictionary, `max_key` returns one of its keys. -/
lemma max_key_mem (counts : Counts) (h : counts ≠ []) :
    max_key counts ∈ counts.map Prod.fst := by
  match counts with
  | [] => exact absurd rfl h
  | (k, v) :: rest =>
    simp only [max_key]
    rcases foldl_max_mem rest (k, v) with heq | hmem
    · rw [heq]
      exact List.mem_cons_self _ _
    · exact List.mem_cons_of_mem _ (List.mem_map_of_mem Prod.fst hmem)

/-- The majority-vote outcome of a one-bit classical register is the bit 0
or 1. -/
lemma value_of_counts_bit (counts : Counts)
    (hkeys : ∀ p ∈ counts, p.1 = "0" ∨ p.1 = "1") :
    value_of_counts counts = 0 ∨ value_of_counts counts = 1 := by
  match counts with
  | [] => left; rfl
  | q :: rest =>
    have hmem := max_key_mem (q :: rest) (List.cons_ne_nil q rest)
    rw [List.mem_map] at hmem
    obtain ⟨p, hp, hpk⟩ := hmem
    rcases hkeys p hp with h | h <;> rw [value_of_counts, ← hpk, h]
    · left; decide
    · right; decide

/-- The recovered bit is at most 1. -/
lemma value_of_counts_le_one (counts : Counts)
    (hkeys : ∀ p ∈ counts, p.1 = "0" ∨ p.1 = "1") :
    value_of_counts counts ≤ 1 := by
  rcases value_of_counts_bit counts hkeys with h | h <;> omega

/-- `1 / 2 ^ n` is at most 1 over the rationals. -/
lemma one_div_two_pow_le_one (n : ℕ) : (1 : ℚ) / 2 ^ n ≤ 1 := by
  rw [div_le_one (by positivity)]
  have h : (1 : ℕ) ≤ 2 ^ n := Nat.one_le_two_pow
  exact_mod_cast h

/-- Arithmetic of one loop step: adding a bit at weight `2 ^ (n + 1)` to a
phase within `1 - 1 / 2 ^ n` of its start keeps it within
`1 - 1 / 2 ^ (n + 1)`. -/
lemma step_bound (n : ℕ) (b : ℚ) (_hb0 : 0 ≤ b) (hb1 : b ≤ 1) :
    b / 2 ^ (n + 1) + (1 - 1 / 2 ^ n) ≤ 1 - 1 / 2 ^ (n + 1) := by
  have h2 : (0 : ℚ) < (2 : ℚ) ^ n := by positivity
  have h21 : (0 : ℚ) < (2 : ℚ) ^ (n + 1) := by positivity
  have hdiv : b / 2 ^ (n + 1) ≤ 1 / 2 ^ (n + 1) := by gcongr
  have hpow : (1 : ℚ) / 2 ^ n = 2 / 2 ^ (n + 1) := by
    rw [pow_succ]
    rw [div_eq_div_iff (by positivity) (by positivity)]
    ring
  have h1 : (1 : ℚ) / 2 ^ (n + 1) + 1 / 2 ^ (n + 1) = 1 / 2 ^ n := by
    rw [hpow, div_add_div_same]
    norm_num
  linarith

/-- Invariant of the IPEA loop over `reversed(range(n))`: starting from any
accumulator value `φ`, the terminal accumulator and every intermediate
accumulator lie between `φ` and `φ + 1 - 1 / 2 ^ n`. -/
lemma ipea_loop_bounds (oracle : ℕ → Counts)
    (hbits : ∀ k, value_of_counts (oracle k) ≤ 1) :
    ∀ n : ℕ, ∀ φ : ℚ,
      (φ ≤ (ipea_loop oracle (List.range n).reverse φ).1 ∧
        (ipea_loop oracle (List.range n).reverse φ).1 ≤ φ + (1 - 1 / 2 ^ n)) ∧
      ∀ p ∈ ipea_phases oracle (List.range n).reverse φ,
        φ ≤ p ∧ p ≤ φ + (1 - 1 / 2 ^ n) := by
  intro n
  induction n with
  | zero =>
    intro φ
    simp only [List.range_zero, List.reverse_nil, ipea_loop_nil, ipea_phases_nil]
    refine ⟨⟨le_refl φ, by norm_num⟩, ?_⟩
    intro p hp
    exact absurd hp (List.not_mem_nil p)
  | succ n ih =>
    intro φ
    rw [range_reverse_succ, ipea_loop_cons, ipea_phases_cons]
    have hb0 : (0 : ℚ) ≤ (value_of_counts (oracle n) : ℚ) := by positivity
    have hb1 : (value_of_counts (oracle n) : ℚ) ≤ 1 := by exact_mod_cast hbits n
    have hstep : (0 : ℚ) ≤ (value_of_counts (oracle n) : ℚ) / 2 ^ (n + 1) := by positivity
    have hkey := step_bound n (value_of_counts (oracle n) : ℚ) hb0 hb1
    have hone := one_div_two_pow_le_one n
    obtain ⟨⟨ih1, ih2⟩, ih3⟩ := ih (φ + (value_of_counts (oracle n) : ℚ) / 2 ^ (n + 1))
    refine ⟨⟨by linarith, by linarith⟩, ?_⟩
    intro p hp
    rcases List.mem_cons.1 hp with h | h
    · subst h
      exact ⟨by linarith, by linarith⟩
    · obtain ⟨h1, h2⟩ := ih3 p h
      exact ⟨by linarith, by linarith⟩

/-- The terminal accumulator of the IPEA loop over `reversed(range(n))` is
the start plus a dyadic rational `m / 2 ^ n` with `m ≤ 2 ^ n - 1`. -/
lemma ipea_loop_dyadic (oracle : ℕ → Counts)
    (hbits : ∀ k, value_of_counts (oracle k) ≤ 1) :
    ∀ n : ℕ, ∀ φ : ℚ, ∃ m : ℕ, m ≤ 2 ^ n - 1 ∧
      (ipea_loop oracle (List.range n).reverse φ).1 = φ + (m : ℚ) / 2 ^ n := by
  intro n
  induction n with
  | zero =>
    intro φ
    refine ⟨0, by norm_num, ?_⟩
    simp [ipea_loop_nil]
  | succ n ih =>
    intro φ
    rw [range_reverse_succ, ipea_loop_cons]
    obtain ⟨m, hm, heq⟩ := ih (φ + (value_of_counts (oracle n) : ℚ) / 2 ^ (n + 1))
    have hb : value_of_counts (oracle n) ≤ 1 := hbits n
    have h2 : (1 : ℕ) ≤ 2 ^ n := Nat.one_le_two_pow
    refine ⟨value_of_counts (oracle n) + 2 * m, by omega, ?_⟩
    rw [heq]
    have hne : ((2 : ℚ) ^ (n + 1)) ≠ 0 := by positivity
    have hne2 : ((2 : ℚ) ^ n) ≠ 0 := by positivity
    push_cast
    rw [pow_succ]
    field_simp
    ring

/-- The accumulator never decreases across iterations of the IPEA loop. -/
lemma ipea_phases_chain (oracle : ℕ → Counts) :
    ∀ (ks : List ℕ) (φ : ℚ),
      List.Chain' (· ≤ ·) (φ :: ipea_phases oracle ks φ) := by
  intro ks
  induction ks with
  | nil =>
    intro φ
    simp [ipea_phases_nil]
  | cons k ks ih =>
    intro φ
    rw [ipea_phases_cons]
    refine List.chain'_cons.2 ⟨?_, ih _⟩
    have : (0 : ℚ) ≤ (value_of_counts (oracle k) : ℚ) / 2 ^ (k + 1) := by positivity
    linarith

/-- The per-iteration `control_H` counts of the circuits the loop executes
are exactly `2 ^ k` for the indices `k` processed, in order. -/
lemma ipea_loop_counts (oracle : ℕ → Counts) :
    ∀ (ks : List ℕ) (φ : ℚ),
      (ipea_loop oracle ks φ).2.map count_control_H = ks.map (2 ^ ·) := by
  intro ks
  induction ks with
  | nil =>
    intro φ
    simp [ipea_loop_nil]
  | cons k ks ih =>
    intro φ
    rw [ipea_loop_cons]
    simp [count_control_H_k_circ, ih]

/-- The loop executes one circuit per processed index. -/
lemma ipea_loop_length (oracle : ℕ → Counts) (ks : List ℕ) (φ : ℚ) :
    (ipea_loop oracle ks φ).2.length = ks.length := by
  have h := congrArg List.length (ipea_loop_counts oracle ks φ)
  simpa using h

/-- The loop updates the accumulator once per processed index. -/
lemma ipea_phases_length (oracle : ℕ → Counts) :
    ∀ (ks : List ℕ) (φ : ℚ), (ipea_phases oracle ks φ).length = ks.length := by
  intro ks
  induction ks with
  | nil => intro φ; rfl
  | cons k ks ih =>
    intro φ
    rw [ipea_phases_cons]
    simp [ih]

/-- Powers of two summed over `range n` give `2 ^ n - 1`. -/
lemma sum_range_two_pow (n : ℕ) :
    ((List.range n).map (2 ^ ·)).sum = 2 ^ n - 1 := by
  induction n with
  | zero => rfl
  | succ n ih =>
    rw [List.range_succ]
    have h2 : (1 : ℕ) ≤ 2 ^ n := Nat.one_le_two_pow
    simp [ih]
    omega

/-! ## Claims about the IPEA notebook -/

/-- C3: in every iteration of the IPEA loop with remaining indices
`k :: ks` and accumulator `phase`, the executed circuit is `k_circ phase k`,
which applies `control_H` exactly `2 ^ k` times in one contiguous block,
followed by the phase-correction `u1` rotation on the ancilla whose real
angle is `-2·π·phase·2 ^ k` (with `phase` the accumulator before the
iteration); after the measurement the accumulator is updated by
`phase += b_k / 2 ^ (k + 1)` where `b_k` is the majority-vote outcome bit
of the iteration's counts. -/
theorem ipea_iteration_structure (oracle : ℕ → Counts) (phase : ℚ) (k : ℕ) (ks : List ℕ) :
    (ipea_loop oracle (k :: ks) phase).2.head? = some (k_circ phase k) ∧
    k_circ phase k =
      [IGate.x_q, IGate.h_a] ++ List.replicate (2 ^ k) IGate.control_H ++
        [IGate.u1_a (-(2 * phase * 2 ^ k)), IGate.h_a, IGate.measure_a] ∧
    count_control_H (k_circ phase k) = 2 ^ k ∧
    ((-(2 * phase * 2 ^ k) : ℚ) : ℝ) * Real.pi = -(2 * Real.pi * (phase : ℝ) * 2 ^ k) ∧
    (ipea_loop oracle (k :: ks) phase).1 =
      (ipea_loop oracle ks
        (phase + (value_of_counts (oracle k) : ℚ) / 2 ^ (k + 1))).1 := by
  refine ⟨rfl, rfl, count_control_H_k_circ phase k, ?_, rfl⟩
  push_cast
  ring

/-- C7: the accumulated phase of the iterative phase estimator starts at 0,
is updated additively exactly once per iteration (the list of successive
accumulator values has one entry per iteration), stays in `[0, 1)` after
every iteration, and the returned final estimate lies in `[0, 1)`. -/
theorem ipea_phase_in_unit_interval (oracle : ℕ → Counts) (num_bits : ℕ)
    (hkeys : ∀ k, ∀ p ∈ oracle k, p.1 = "0" ∨ p.1 = "1") :
    ipea_phase oracle num_bits = (ipea_loop oracle (List.range num_bits).reverse 0).1 ∧
    (ipea_phases oracle (List.range num_bits).reverse 0).length = num_bits ∧
    (∀ p ∈ ipea_phases oracle (List.range num_bits).reverse 0, 0 ≤ p ∧ p < 1) ∧
    0 ≤ ipea_phase oracle num_bits ∧ ipea_phase oracle num_bits < 1 := by
  have hbits : ∀ k, value_of_counts (oracle k) ≤ 1 :=
    fun k => value_of_counts_le_one (oracle k) (hkeys k)
  have hlt : (0 : ℚ) < 1 / 2 ^ num_bits := by positivity
  obtain ⟨⟨h1, h2⟩, h3⟩ := ipea_loop_bounds oracle hbits num_bits 0
  refine ⟨rfl, ?_, ?_, h1, ?_⟩
  · rw [ipea_phases_length]
    simp
  · intro p hp
    obtain ⟨hp1, hp2⟩ := h3 p hp
    exact ⟨hp1, by linarith⟩
  · rw [ipea_phase]
    linarith

/-- Witness for C7 with three iterations of a concrete majority-1 oracle. -/
theorem ipea_phase_in_unit_interval_witness :
    (∀ k, ∀ p ∈ oracle1 k, p.1 = "0" ∨ p.1 = "1") ∧
    (ipea_phase oracle1 3 = (ipea_loop oracle1 (List.range 3).reverse 0).1 ∧
    (ipea_phases oracle1 (List.range 3).reverse 0).length = 3 ∧
    (∀ p ∈ ipea_phases oracle1 (List.range 3).reverse 0, 0 ≤ p ∧ p < 1) ∧
    0 ≤ ipea_phase oracle1 3 ∧ ipea_phase oracle1 3 < 1) := by
  have hk : ∀ k, ∀ p ∈ oracle1 k, p.1 = "0" ∨ p.1 = "1" := fun _ =>
    show ∀ p ∈ ([("1", 700), ("0", 300)] : Counts), p.1 = "0" ∨ p.1 = "1" by decide
  exact ⟨hk, ipea_phase_in_unit_interval oracle1 3 hk⟩

/-- C8: for every `num_bits ≥ 1` the IPEA loop runs exactly `num_bits`
iterations (one executed circuit per iteration, no early exit), the total
number of `control_H` applications over the run is `2 ^ num_bits - 1` (the
geometric sum of `2 ^ k` for `k < num_bits`), the first iteration's circuit
uses `2 ^ (num_bits - 1)` applications, and no iteration uses more. -/
theorem ipea_loop_iterations_and_cost (oracle : ℕ → Counts) (num_bits : ℕ)
    (h1 : 1 ≤ num_bits) :
    (ipea_circuits oracle num_bits).length = num_bits ∧
    ((ipea_circuits oracle num_bits).map count_control_H).sum = 2 ^ num_bits - 1 ∧
    (ipea_circuits oracle num_bits).head? = some (k_circ 0 (num_bits - 1)) ∧
    count_control_H (k_circ 0 (num_bits - 1)) = 2 ^ (num_bits - 1) ∧
    ∀ c ∈ ipea_circuits oracle num_bits,
      count_control_H c ≤ 2 ^ (num_bits - 1) := by
  obtain ⟨n, rfl⟩ : ∃ n, num_bits = n + 1 := ⟨num_bits - 1, by omega⟩
  have hcounts := ipea_loop_counts oracle (List.range (n + 1)).reverse 0
  refine ⟨?_, ?_, ?_, count_control_H_k_circ 0 _, ?_⟩
  · rw [ipea_circuits, ipea_loop_length]
    simp
  · rw [ipea_circuits, hcounts, List.map_reverse, List.sum_reverse,
      sum_range_two_pow]
  · rw [ipea_circuits, range_reverse_succ, ipea_loop_cons]
    simp
  · intro c hc
    have hmem : count_control_H c ∈
        (ipea_loop oracle (List.range (n + 1)).reverse 0).2.map count_control_H :=
      List.mem_map_of_mem count_control_H hc
    rw [hcounts, List.mem_map] at hmem
    obtain ⟨k, hk, hkeq⟩ := hmem
    rw [List.mem_reverse, List.mem_range] at hk
    rw [← hkeq]
    simp only [Nat.add_sub_cancel]
    exact Nat.pow_le_pow_right (by norm_num) (by omega)

/-- Witness for C8 with three iterations of a concrete oracle. -/
theorem ipea_loop_iterations_and_cost_witness :
    1 ≤ 3 ∧
    ((ipea_circuits oracle1 3).length = 3 ∧
    ((ipea_circuits oracle1 3).map count_control_H).sum = 2 ^ 3 - 1 ∧
    (ipea_circuits oracle1 3).head? = some (k_circ 0 (3 - 1)) ∧
    count_control_H (k_circ 0 (3 - 1)) = 2 ^ (3 - 1) ∧
    ∀ c ∈ ipea_circuits oracle1 3, count_control_H c ≤ 2 ^ (3 - 1)) :=
  ⟨by decide, ipea_loop_iterations_and_cost oracle1 3 (by decide)⟩

/-- C9: after the loop finishes, the notebook recovers the eigenvalue from
the final phase estimate `φ` as `E = 2·π·(1 − φ) / t`: the stored
π-coefficient `eigenvalue_in_pi φ` is `2·(1 − φ) / t`, and the real
eigenvalue it denotes equals `2·π·(1 − φ) / t`. -/
theorem ipea_eigenvalue_formula (oracle : ℕ → Counts) (num_bits : ℕ) :
    eigenvalue_in_pi (ipea_phase oracle num_bits) =
      2 * (1 - ipea_phase oracle num_bits) / t ∧
    ((eigenvalue_in_pi (ipea_phase oracle num_bits) : ℚ) : ℝ) * Real.pi =
      2 * Real.pi * (1 - ((ipea_phase oracle num_bits : ℚ) : ℝ)) / ((t : ℚ) : ℝ) := by
  refine ⟨rfl, ?_⟩
  rw [eigenvalue_in_pi, t]
  push_cast
  ring

/-- C10: under the one-bit classical register, every recovered bit is 0 or
1, the phase accumulator is non-decreasing across iterations, and the final
phase is a dyadic rational `m / 2 ^ num_bits` with `0 ≤ m < 2 ^ num_bits`. -/
theorem ipea_bits_dyadic (oracle : ℕ → Counts) (num_bits : ℕ)
    (hkeys : ∀ k, ∀ p ∈ oracle k, p.1 = "0" ∨ p.1 = "1") :
    (∀ k, value_of_counts (oracle k) = 0 ∨ value_of_counts (oracle k) = 1) ∧
    List.Chain' (· ≤ ·) (0 :: ipea_phases oracle (List.range num_bits).reverse 0) ∧
    ∃ m : ℕ, m < 2 ^ num_bits ∧
      ipea_phase oracle num_bits = (m : ℚ) / 2 ^ num_bits := by
  have hbits : ∀ k, value_of_counts (oracle k) ≤ 1 :=
    fun k => value_of_counts_le_one (oracle k) (hkeys k)
  refine ⟨fun k => value_of_counts_bit (oracle k) (hkeys k),
    ipea_phases_chain oracle _ 0, ?_⟩
  obtain ⟨m, hm, heq⟩ := ipea_loop_dyadic oracle hbits num_bits 0
  have h2 : (1 : ℕ) ≤ 2 ^ num_bits := Nat.one_le_two_pow
  refine ⟨m, by omega, ?_⟩
  rw [ipea_phase, heq]
  ring

/-- Witness for C10 with three iterations of a concrete oracle. -/
theorem ipea_bits_dyadic_witness :
    (∀ k, ∀ p ∈ oracle1 k, p.1 = "0" ∨ p.1 = "1") ∧
    ((∀ k, value_of_counts (oracle1 k) = 0 ∨ value_of_counts (oracle1 k) = 1) ∧
    List.Chain' (· ≤ ·) (0 :: ipea_phases oracle1 (List.range 3).reverse 0) ∧
    ∃ m : ℕ, m < 2 ^ 3 ∧ ipea_phase oracle1 3 = (m : ℚ) / 2 ^ 3) := by
  have hk : ∀ k, ∀ p ∈ oracle1 k, p.1 = "0" ∨ p.1 = "1" := fun _ =>
    show ∀ p ∈ ([("1", 700), ("0", 300)] : Counts), p.1 = "0" ∨ p.1 = "1" by decide
  exact ⟨hk, ipea_bits_dyadic oracle1 3 hk⟩

end QAT
